import Mathlib

/-!
Verification of the CLI command parser/dispatcher of `cli.c`
(GeneralEmbeddedCLibraries/cli, module version V1.2.0).

Conventions of the shallow embedding:

* A byte is a `Nat` (0..255); the value 0 is the C `NUL`.
* A C string is the `List Nat` of its bytes up to (and excluding) the
  terminating `NUL`; such lists contain no 0 entry.
* Nullable C pointers to strings / functions are `Option`s.
* Configuration constants from `cli_cfg.h` (which is a user-supplied file and
  not part of the sources) are explicit parameters:
  `rxN = CLI_CFG_RX_BUF_SIZE`, `txN = CLI_CFG_TX_BUF_SIZE`,
  `term = CLI_CFG_TERMINATION_STRING`,
  `maxTables = CLI_CFG_MAX_NUM_OF_USER_TABLES`,
  `maxCmds = CLI_CFG_MAX_NUM_OF_COMMANDS`,
  `maxWatch = CLI_CFG_PAR_MAX_IN_LIVE_WATCH`.
-/

namespace Cli

/-- Bytes of the C program are modelled as natural numbers; 0 is NUL. -/
abbrev Byte := Nat

/-- Helper turning a Lean string literal into the byte list of the
corresponding ASCII C string. -/
def bytes (s : String) : List Byte := s.toList.map Char.toNat

/-- The `cli_status_t` enumeration of `cli.h`. -/
inductive cli_status_t where
  | eCLI_OK
  | eCLI_ERROR
  | eCLI_ERROR_INIT
  | eCLI_ERROR_NVM
deriving DecidableEq, Repr

/-- Embedding of `cli_find_char` (cli.c:1782-1810): scan at most `size`
characters, stop at NUL (modelled by the end of the list); on finding
`target` return the sub-string just after it (the C code returns
`str + ch + 1`), otherwise the C code returns `NULL`, modelled as `none`. -/
def cli_find_char : List Byte → Byte → Nat → Option (List Byte)
  | _, _, 0 => none
  | [], _, _ + 1 => none
  | b :: rest, target, size + 1 =>
    if b = target then some rest else cli_find_char rest target size

/-- Embedding of `cli_find_char_pos` (cli.c:1828-1854): like `cli_find_char`
but returning the position of the first occurrence; the C code returns `-1`
when the character is not found, modelled as `none`. -/
def cli_find_char_pos : List Byte → Byte → Nat → Option Nat
  | _, _, 0 => none
  | [], _, _ + 1 => none
  | b :: rest, target, size + 1 =>
    if b = target then some 0 else (cli_find_char_pos rest target size).map (· + 1)

/-- Embedding of `cli_calc_cmd_size` (cli.c:500-517).  With no attribute the
size is `strlen(p_cmd)`; otherwise it is the position of the first space as
computed by `cli_find_char_pos`.  The C code assigns the `int32_t` result to a
`uint32_t`; the (unreachable when `attr` is present) not-found value `-1`
therefore reads back as `2^32 - 1`. -/
def cli_calc_cmd_size (rxN : Nat) (p_cmd : List Byte) (attr : Option (List Byte)) : Nat :=
  match attr with
  | none => p_cmd.length
  | some _ => (cli_find_char_pos p_cmd 32 rxN).getD (2 ^ 32 - 1)

/-- C `strncmp(a, b, n) == 0` for proper C strings `a`, `b` (lists of
non-NUL bytes): the comparison stops at the first difference, at the `n`-th
character, or at a NUL terminator, which for NUL-free lists amounts to
comparing the length-`n` prefixes of the two strings. -/
def strncmp_eq (a b : List Byte) (n : Nat) : Bool :=
  a.take n == b.take n

/-- Dereference of a nullable C string; source functions that reach this on a
`NULL` pointer have undefined behaviour in C, the model totalises it to the
empty string (all uses in proved theorems are on validated, non-null data). -/
def cstr (o : Option (List Byte)) : List Byte := o.getD []

/-- Embedding of `cli_cmd_t` (cli.c / cli.h V1.2.0): command name, handler
function pointer (identified abstractly by a number, since only *which*
handler runs is observable to the dispatcher) and help string.  All three are
nullable pointers in C. -/
structure cli_cmd_t where
  p_name : Option (List Byte)
  p_func : Option Nat
  p_help : Option (List Byte)
deriving DecidableEq, Repr

/-- Embedding of `cli_cmd_table_t`: array of commands plus its `num_of`
count (the count is the list length). -/
structure cli_cmd_table_t where
  cmd : List cli_cmd_t
deriving DecidableEq, Repr

/-- The command-match test shared by `cli_basic_table_check_and_exe`
(cli.c:402-405) and `cli_user_table_check_and_exe` (cli.c:465-468):
`0 == strncmp(p_cmd, name_str, CLI_MAX(cmd_size, strlen(name_str)))`. -/
def cli_cmd_match (p_cmd : List Byte) (cmd_size : Nat) (name_str : List Byte) : Bool :=
  strncmp_eq p_cmd name_str (max cmd_size name_str.length)

/-- The linear scan with break shared by both table-check functions: index of
the first command of the table whose name matches. -/
def cli_table_scan (p_cmd : List Byte) (cmd_size : Nat) : List cli_cmd_t → Option Nat
  | [] => none
  | c :: rest =>
    if cli_cmd_match p_cmd cmd_size (cstr c.p_name) then some 0
    else (cli_table_scan p_cmd cmd_size rest).map (· + 1)

/-- Embedding of `cli_basic_table_check_and_exe` (cli.c:388-418): walk the
basic table in declaration order, execute the first match.  The model returns
the index of the executed command (`none` = `cmd_found == false`). -/
def cli_basic_table_check_and_exe (basic : List cli_cmd_t) (p_cmd : List Byte)
    (cmd_size : Nat) : Option Nat :=
  cli_table_scan p_cmd cmd_size basic

/-- Embedding of `cli_user_table_check_and_exe` (cli.c:441-489): walk the
`CLI_CFG_MAX_NUM_OF_USER_TABLES` registration slots in order (unregistered
slots are `NULL`, modelled `none`), within each registered table walk the
commands in declaration order, and stop at the first match.  Returns the
(slot, command) indices of the executed command. -/
def cli_user_table_check_and_exe (p_cmd : List Byte) (cmd_size : Nat) :
    List (Option cli_cmd_table_t) → Option (Nat × Nat)
  | [] => none
  | none :: rest =>
    (cli_user_table_check_and_exe p_cmd cmd_size rest).map (fun ti => (ti.1 + 1, ti.2))
  | some tab :: rest =>
    match cli_table_scan p_cmd cmd_size tab.cmd with
    | some i => some (0, i)
    | none => (cli_user_table_check_and_exe p_cmd cmd_size rest).map (fun ti => (ti.1 + 1, ti.2))

/-- Which handler an execution of `cli_execute_cmd` invoked: a basic-table
command, a user-table command, or the `cli_unknown` fallback. -/
inductive exec_result where
  | basic (cmd_idx : Nat)
  | user (table_idx : Nat) (cmd_idx : Nat)
  | unknown
deriving DecidableEq, Repr

/-- Embedding of `cli_execute_cmd` (cli.c:340-365): split off the attribute at
the first space, compute the command size, try the basic table, then the user
tables, and fall back to `cli_unknown`. -/
def cli_execute_cmd (rxN : Nat) (basic : List cli_cmd_t)
    (tables : List (Option cli_cmd_table_t)) (p_cmd : List Byte) : exec_result :=
  let attr := cli_find_char p_cmd 32 rxN
  let cmd_size := cli_calc_cmd_size rxN p_cmd attr
  match cli_basic_table_check_and_exe basic p_cmd cmd_size with
  | some i => .basic i
  | none =>
    match cli_user_table_check_and_exe p_cmd cmd_size tables with
    | some ti => .user ti.1 ti.2
    | none => .unknown

/-- Resolve an `exec_result` back to the command entry that was executed
(`none` for the unknown-command fallback). -/
def exec_lookup (basic : List cli_cmd_t) (tables : List (Option cli_cmd_table_t)) :
    exec_result → Option cli_cmd_t
  | .basic i => basic.get? i
  | .user t i =>
    match tables.get? t with
    | some (some tab) => tab.cmd.get? i
    | _ => none
  | .unknown => none

/-- Output of `cli_unknown` (cli.c:763-766): a single `cli_printf` call, i.e.
exactly one output line. -/
def cli_unknown_output : List (List Byte) := [bytes (r"ERR, Unknown command!")]

/-- The separator line printed by `cli_help` (56 dashes, cli.c:537 etc.). -/
def cli_help_sep : List Byte := List.replicate 56 45

/-- One `cli_printf( "%-25s%s", name_str, help_str )` line of `cli_help`:
the name left-justified in a 25-character column followed by the help text. -/
def cli_help_line (c : cli_cmd_t) : List Byte :=
  cstr c.p_name ++ List.replicate (25 - (cstr c.p_name).length) 32 ++ cstr c.p_help

/-- The user-table loop of `cli_help` (cli.c:551-573): iterate over all
registration slots in order; an unregistered (`NULL`) slot prints nothing, a
registered table prints a separator followed by one line per command. -/
def cli_help_user_loop : List (Option cli_cmd_table_t) → List (List Byte)
  | [] => []
  | none :: rest => cli_help_user_loop rest
  | some tab :: rest => (cli_help_sep :: tab.cmd.map cli_help_line) ++ cli_help_user_loop rest

/-- Embedding of `cli_help` (cli.c:527-582) as the list of output lines it
produces.  With no attribute: header, the basic table, the user tables (with
separators), and a final separator; with any attribute present:
`cli_unknown(NULL)`. -/
def cli_help (basic : List cli_cmd_t) (tables : List (Option cli_cmd_table_t))
    (p_attr : Option (List Byte)) : List (List Byte) :=
  match p_attr with
  | none =>
    [bytes (r" "), bytes (r"    List of device commands "), cli_help_sep]
      ++ basic.map cli_help_line
      ++ cli_help_user_loop tables
      ++ [cli_help_sep]
  | some _ => cli_unknown_output

/-- Embedding of `cli_validate_user_table` (cli.c:1729-1761): the command
count must not exceed `CLI_CFG_MAX_NUM_OF_COMMANDS` and every command must
have non-NULL name, help and function. -/
def cli_validate_user_table (maxCmds : Nat) (tab : cli_cmd_table_t) : Bool :=
  decide (tab.cmd.length ≤ maxCmds) &&
    tab.cmd.all (fun c => c.p_name.isSome && c.p_help.isSome && c.p_func.isSome)

/-- The registry state touched by `cli_register_cmd_table`: the
`gp_cli_user_tables` slot array and the `gu32_user_table_count` counter. -/
structure cli_registry where
  tables : List (Option cli_cmd_table_t)
  count : Nat
deriving DecidableEq, Repr

/-- Embedding of `cli_register_cmd_table` (cli.c:2118-2172) for a non-NULL
table pointer, with the mutex collaborator assumed to succeed (spec §1 treats
the transport/mutex as a reliable collaborator): if a slot is free and the
table validates, store it at index `count` and increment the count; otherwise
return `eCLI_ERROR` and leave the registry untouched (the invalid-table branch
also raises `CLI_ASSERT(0)` in debug builds). -/
def cli_register_cmd_table (maxTables maxCmds : Nat) (st : cli_registry)
    (tab : cli_cmd_table_t) : cli_registry × cli_status_t :=
  if st.count < maxTables then
    if cli_validate_user_table maxCmds tab then
      ({ tables := st.tables.set st.count (some tab), count := st.count + 1 }, .eCLI_OK)
    else (st, .eCLI_ERROR)
  else (st, .eCLI_ERROR)

/-- The C string stored in a buffer: its bytes up to the first NUL. -/
def cstring (buf : List Byte) : List Byte := buf.takeWhile (· ≠ 0)

/-- Position of the first occurrence of `term` in `hay`, i.e. the offset
returned by `strstr(hay, term)` (`none` = `NULL`). -/
def strstr_pos (term : List Byte) : List Byte → Option Nat
  | [] => if term.isPrefixOf [] then some 0 else none
  | b :: rest =>
    if term.isPrefixOf (b :: rest) then some 0
    else (strstr_pos term rest).map (· + 1)

/-- `memset(buf + p, 0, len)`: overwrite `len` bytes starting at offset `p`
with NUL. -/
def zeroRange (buf : List Byte) (p len : Nat) : List Byte :=
  buf.take p ++ List.replicate len 0 ++ buf.drop (p + len)

/-- The persistent parsing state of `cli_parser_hndl`: the `gu8_rx_buffer`
contents (a list of fixed length `CLI_CFG_RX_BUF_SIZE`) and the static
`buf_idx` cursor. -/
structure parser_state where
  buf : List Byte
  buf_idx : Nat
deriving DecidableEq, Repr

/-- The reception buffer at dispatcher start: all zeroes, cursor 0
(`gu8_rx_buffer` is zero-initialised, cli.c:139). -/
def cli_empty_state (rxN : Nat) : parser_state := ⟨List.replicate rxN 0, 0⟩

/-- One iteration of the byte-draining loop of `cli_parser_hndl`
(cli.c:253-306), after `cli_if_receive` stored byte `b` at
`gu8_rx_buffer[buf_idx]`: `strstr` the whole buffer (as a C string) for the
termination string; if found, overwrite the occurrence with NULs
(`memset`, cli.c:270), reset `buf_idx`, and dispatch the buffer's C string via
`cli_execute_cmd` (the returned `Option` is the dispatched line); else
advance the cursor while `buf_idx < CLI_CFG_RX_BUF_SIZE - 2`, or signal the
overrun error and reset the cursor. -/
def cli_parser_step (rxN : Nat) (term : List Byte) (st : parser_state) (b : Byte) :
    parser_state × Option (List Byte) × cli_status_t :=
  let buf := st.buf.set st.buf_idx b
  match strstr_pos term (cstring buf) with
  | some p =>
    let buf2 := zeroRange buf p term.length
    (⟨buf2, 0⟩, some (cstring buf2), .eCLI_OK)
  | none =>
    if st.buf_idx < rxN - 2 then (⟨buf, st.buf_idx + 1⟩, none, .eCLI_OK)
    else (⟨buf, 0⟩, none, .eCLI_ERROR)

/-- Feeding bytes one at a time: each element of the input list is delivered
by one call of `cli_parser_hndl` during which `cli_if_receive` yields exactly
that byte (the loop then breaks on a dispatch, on an error, or because no
further byte is available; the escape counter, 10000 per call, is never
reached with a single byte per call).  Returns the final parsing state, the
dispatched lines in order, and the per-call statuses. -/
def cli_feed (rxN : Nat) (term : List Byte) (st : parser_state) :
    List Byte → parser_state × List (List Byte) × List cli_status_t
  | [] => (st, [], [])
  | b :: rest =>
    let out := cli_parser_step rxN term st b
    let next := cli_feed rxN term out.1 rest
    (next.1, out.2.1.toList ++ next.2.1, out.2.2 :: next.2.2)

/-- Embedding of `cli_printf` (cli.c:2027-2058).  Inputs: the staging-buffer
capacity `txN = CLI_CFG_TX_BUF_SIZE` (the declared size of `gu8_tx_buffer`),
the `gb_is_init` flag, the format pointer with the rendering that `vsprintf`
produces for it (`none` models a NULL format pointer; number formatting
itself is a collaborator primitive per spec §1), and the termination string.
The code renders with `vsprintf` — which writes the whole rendering into
`gu8_tx_buffer` without consulting its capacity — then sends the buffer and
the terminator; the transmit/mutex collaborators are modelled as succeeding.
Returns the status and the transmitted chunks.  Note that neither the status
nor the output depends on `txN`, faithfully to the source. -/
def cli_printf (txN : Nat) (is_init : Bool) (rendered : Option (List Byte))
    (term : List Byte) : cli_status_t × List (List Byte) :=
  if is_init then
    match rendered with
    | some r => (.eCLI_OK, [r, term])
    | none => (.eCLI_ERROR, [])
  else (.eCLI_ERROR_INIT, [])

/-- The parse-and-store loop of `cli_status_des` (cli.c:1361-1398), entered
with `g_cli_live_watch.num_of` reset to 0.  The attribute is modelled as the
list of integers that successive `sscanf("%d%n")` calls extract (`sscanf` and
the comma skipping are C library collaborators); `lookup` models
`par_get_num_by_id` (`some par_num` = `ePAR_OK`).  The loop runs while
`num_of <= CLI_CFG_PAR_MAX_IN_LIVE_WATCH` (note: `<=`, not `<`) and a further
integer is available; a valid ID is stored with `par_list[num_of] = par_num;
num_of++`, an invalid ID resets `num_of` to 0 and breaks.  Returns the final
`num_of`, the `(index, value)` writes performed on `par_list` in order, and
the `invalid_par` flag. -/
def cli_status_des_loop (maxWatch : Nat) (lookup : Nat → Option Nat) :
    List Nat → Nat → Nat × List (Nat × Nat) × Bool
  | [], n => (n, [], false)
  | id :: rest, n =>
    if n ≤ maxWatch then
      match lookup id with
      | some pn =>
        let r := cli_status_des_loop maxWatch lookup rest (n + 1)
        (r.1, (n, pn) :: r.2.1, r.2.2)
      | none => (0, [], true)
    else (n, [], false)

/-- `cli_status_des` for a present attribute: reset `num_of` and run the
parse loop (the code after the loop only prints; it never changes `num_of`
or `par_list` again). -/
def cli_status_des_core (maxWatch : Nat) (lookup : Nat → Option Nat) (ids : List Nat) :
    Nat × List (Nat × Nat) × Bool :=
  cli_status_des_loop maxWatch lookup ids 0

end Cli

namespace Cli

/-! Sanity examples for the splitter and matcher. -/

example : cli_find_char (bytes "par_set 12,3.5") 32 600 = some (bytes "12,3.5") := by decide
example : cli_find_char (bytes "help") 32 600 = none := by decide
example : cli_find_char (bytes "cmd ") 32 600 = some [] := by decide
example : cli_calc_cmd_size 600 (bytes "par_set 12,3.5") (some (bytes "12,3.5")) = 7 := by decide
example : cli_cmd_match (bytes "par") 3 (bytes "par_set") = false := by decide
example : cli_cmd_match (bytes "par_set 1") 7 (bytes "par") = false := by decide
example : cli_cmd_match (bytes "par_set 1") 7 (bytes "par_set") = true := by decide

/-! Sanity examples for the parser state machine (rxN = 8, term = CR LF). -/

example :
    (cli_feed 8 [13, 10] (cli_empty_state 8) (bytes "hi" ++ [13, 10])).2.1 = [bytes "hi"] := by
  decide

example : (cli_feed 8 [13, 10] (cli_empty_state 8) (bytes "hi" ++ [13, 10])).1.buf_idx = 0 := by
  decide

example :
    (cli_feed 8 [13, 10] (cli_empty_state 8) (bytes "abcdefg")).2.2 =
      [.eCLI_OK, .eCLI_OK, .eCLI_OK, .eCLI_OK, .eCLI_OK, .eCLI_OK, .eCLI_ERROR] := by
  decide

example : cli_status_des_core 4 some [1, 2, 3, 4, 5] = (5, [(0, 1), (1, 2), (2, 3), (3, 4), (4, 5)], false) := by
  decide

/-! ### Lemmas about the character-search helpers -/

theorem cli_find_char_of_not_mem (l : List Byte) (c : Byte) (n : Nat) (h : c ∉ l) :
    cli_find_char l c n = none := by
  induction l generalizing n with
  | nil => cases n <;> rfl
  | cons b rest ih =>
    cases n with
    | zero => rfl
    | succ m =>
      have hb : b ≠ c := fun hbc => h (hbc ▸ List.mem_cons_self b rest)
      simp only [cli_find_char, if_neg hb]
      exact ih m (fun hc => h (List.mem_cons_of_mem b hc))

theorem cli_find_char_pos_of_not_mem (l : List Byte) (c : Byte) (n : Nat) (h : c ∉ l) :
    cli_find_char_pos l c n = none := by
  induction l generalizing n with
  | nil => cases n <;> rfl
  | cons b rest ih =>
    cases n with
    | zero => rfl
    | succ m =>
      have hb : b ≠ c := fun hbc => h (hbc ▸ List.mem_cons_self b rest)
      simp only [cli_find_char_pos, if_neg hb]
      rw [ih m (fun hc => h (List.mem_cons_of_mem b hc))]
      rfl

theorem cli_find_char_at_first (l : List Byte) (c : Byte) (n p : Nat) (rest : List Byte)
    (hd : l.drop p = c :: rest) (hnot : c ∉ l.take p) (hp : p < n) :
    cli_find_char l c n = some rest := by
  induction p generalizing l n with
  | zero =>
    simp only [List.drop_zero] at hd
    subst hd
    obtain ⟨m, rfl⟩ := Nat.exists_eq_succ_of_ne_zero (Nat.pos_iff_ne_zero.mp hp)
    simp [cli_find_char]
  | succ q ih =>
    cases l with
    | nil => simp at hd
    | cons b tl =>
      obtain ⟨m, rfl⟩ := Nat.exists_eq_succ_of_ne_zero (Nat.not_eq_zero_of_lt hp)
      have hb : b ≠ c := by
        intro hbc
        exact hnot (hbc ▸ List.mem_cons_self b _)
      simp only [cli_find_char, if_neg hb]
      exact ih tl m (by simpa using hd)
        (fun hc => hnot (by simpa using Or.inr hc)) (Nat.lt_of_succ_lt_succ hp)

theorem cli_find_char_pos_at_first (l : List Byte) (c : Byte) (n p : Nat) (rest : List Byte)
    (hd : l.drop p = c :: rest) (hnot : c ∉ l.take p) (hp : p < n) :
    cli_find_char_pos l c n = some p := by
  induction p generalizing l n with
  | zero =>
    simp only [List.drop_zero] at hd
    subst hd
    obtain ⟨m, rfl⟩ := Nat.exists_eq_succ_of_ne_zero (Nat.pos_iff_ne_zero.mp hp)
    simp [cli_find_char_pos]
  | succ q ih =>
    cases l with
    | nil => simp at hd
    | cons b tl =>
      obtain ⟨m, rfl⟩ := Nat.exists_eq_succ_of_ne_zero (Nat.not_eq_zero_of_lt hp)
      have hb : b ≠ c := by
        intro hbc
        exact hnot (hbc ▸ List.mem_cons_self b _)
      simp only [cli_find_char_pos, if_neg hb]
      rw [ih tl m (by simpa using hd)
        (fun hc => hnot (by simpa using Or.inr hc)) (Nat.lt_of_succ_lt_succ hp)]
      rfl

/-- Claim C3: for every NUL-terminated completed line, if the line contains no
space the dispatcher computes an absent attribute (`none`, not an empty
string) and the command-name length is the whole line's length; if the first
space is at offset `p` the command-name length is `p` and the attribute is the
substring starting at offset `p + 1`, unmodified.  In particular a line ending
in a space yields `some []` — a present, zero-length attribute (witness). -/
theorem splitter_spec (rxN : Nat) (line : List Byte) :
    (32 ∉ line → line.length ≤ rxN →
      cli_find_char line 32 rxN = none ∧
      cli_calc_cmd_size rxN line (cli_find_char line 32 rxN) = line.length) ∧
    (∀ p rest, line.drop p = 32 :: rest → 32 ∉ line.take p → p < rxN →
      cli_find_char line 32 rxN = some (line.drop (p + 1)) ∧
      cli_calc_cmd_size rxN line (cli_find_char line 32 rxN) = p) := by
  constructor
  · intro hmem _
    have h1 := cli_find_char_of_not_mem line 32 rxN hmem
    exact ⟨h1, by simp [h1, cli_calc_cmd_size]⟩
  · intro p rest hd hnot hp
    have hrest : line.drop (p + 1) = rest := by
      rw [← List.drop_drop]
      simp [hd]
    have h1 := cli_find_char_at_first line 32 rxN p rest hd hnot hp
    have h2 := cli_find_char_pos_at_first line 32 rxN p rest hd hnot hp
    refine ⟨by rw [h1, hrest], ?_⟩
    rw [h1]
    simp [cli_calc_cmd_size, h2]

/-- Witness for C3 at concrete inputs, including the three splitter examples
from the spec: `"help"` (no attribute), `"par_set 12,3.5"` (name length 7,
attribute `"12,3.5"`), and `"cmd "` (present, empty attribute). -/
theorem splitter_spec_witness :
    ((32 ∉ bytes "help") ∧
      cli_find_char (bytes "help") 32 600 = none ∧
      cli_calc_cmd_size 600 (bytes "help") (cli_find_char (bytes "help") 32 600) = 4) ∧
    ((bytes "par_set 12,3.5").drop 7 = 32 :: bytes "12,3.5" ∧
      cli_find_char (bytes "par_set 12,3.5") 32 600 = some (bytes "12,3.5") ∧
      cli_calc_cmd_size 600 (bytes "par_set 12,3.5")
        (cli_find_char (bytes "par_set 12,3.5") 32 600) = 7) ∧
    (cli_find_char (bytes "cmd ") 32 600 = some [] ∧
      cli_find_char (bytes "cmd ") 32 600 ≠ none) := by
  refine ⟨⟨by decide, ?_, ?_⟩, ⟨by decide, ?_, ?_⟩, by decide, by decide⟩
  · exact ((splitter_spec 600 (bytes "help")).1 (by decide) (by decide)).1
  · exact ((splitter_spec 600 (bytes "help")).1 (by decide) (by decide)).2
  · have h := ((splitter_spec 600 (bytes "par_set 12,3.5")).2 7 (bytes "12,3.5")
      (by decide) (by decide) (by decide)).1
    simpa using h
  · exact ((splitter_spec 600 (bytes "par_set 12,3.5")).2 7 (bytes "12,3.5")
      (by decide) (by decide) (by decide)).2

/-! ### Lemmas about the table scans -/

theorem cli_table_scan_some (p_cmd : List Byte) (cs : Nat) (l : List cli_cmd_t) (i : Nat)
    (h : cli_table_scan p_cmd cs l = some i) :
    ∃ c, l.get? i = some c ∧ cli_cmd_match p_cmd cs (cstr c.p_name) = true := by
  induction l generalizing i with
  | nil => simp [cli_table_scan] at h
  | cons c0 rest ih =>
    by_cases hm : cli_cmd_match p_cmd cs (cstr c0.p_name)
    · simp only [cli_table_scan, if_pos hm, Option.some.injEq] at h
      exact ⟨c0, by simp [← h], hm⟩
    · simp only [cli_table_scan, if_neg hm, Option.map_eq_some'] at h
      obtain ⟨j, hj, rfl⟩ := h
      obtain ⟨c, hc, hcm⟩ := ih j hj
      exact ⟨c, by simpa using hc, hcm⟩

theorem cli_user_scan_some (p_cmd : List Byte) (cs : Nat)
    (slots : List (Option cli_cmd_table_t)) (t i : Nat)
    (h : cli_user_table_check_and_exe p_cmd cs slots = some (t, i)) :
    ∃ tab, slots.get? t = some (some tab) ∧ cli_table_scan p_cmd cs tab.cmd = some i := by
  induction slots generalizing t i with
  | nil => simp [cli_user_table_check_and_exe] at h
  | cons s rest ih =>
    cases s with
    | none =>
      cases hrec : cli_user_table_check_and_exe p_cmd cs rest with
      | none => simp [cli_user_table_check_and_exe, hrec] at h
      | some ti =>
        obtain ⟨t', i'⟩ := ti
        simp only [cli_user_table_check_and_exe, hrec, Option.map_some', Option.some.injEq,
          Prod.mk.injEq] at h
        obtain ⟨ht, hi⟩ := h
        subst ht
        subst hi
        obtain ⟨tab, htab, hscan⟩ := ih t' i' hrec
        exact ⟨tab, by simpa using htab, hscan⟩
    | some tab0 =>
      cases hscan : cli_table_scan p_cmd cs tab0.cmd with
      | some j =>
        simp only [cli_user_table_check_and_exe, hscan, Option.some.injEq, Prod.mk.injEq] at h
        obtain ⟨ht, hi⟩ := h
        subst ht
        subst hi
        exact ⟨tab0, by simp, hscan⟩
      | none =>
        cases hrec : cli_user_table_check_and_exe p_cmd cs rest with
        | none => simp [cli_user_table_check_and_exe, hscan, hrec] at h
        | some ti =>
          obtain ⟨t', i'⟩ := ti
          simp only [cli_user_table_check_and_exe, hscan, hrec, Option.map_some',
            Option.some.injEq, Prod.mk.injEq] at h
          obtain ⟨ht, hi⟩ := h
          subst ht
          subst hi
          obtain ⟨tab, htab, hscan'⟩ := ih t' i' hrec
          exact ⟨tab, by simpa using htab, hscan'⟩

/-- Splitting a list at the first occurrence of an element. -/
theorem mem_split_at_first (c : Byte) (l : List Byte) (h : c ∈ l) :
    ∃ p rest, l.drop p = c :: rest ∧ c ∉ l.take p := by
  induction l with
  | nil => simp at h
  | cons b tl ih =>
    by_cases hb : b = c
    · exact ⟨0, tl, by simp [hb], by simp⟩
    · have hmem : c ∈ tl := by
        rcases List.mem_cons.mp h with h1 | h1
        · exact absurd h1.symm hb
        · exact h1
      obtain ⟨p, rest, hd, hnot⟩ := ih hmem
      refine ⟨p + 1, rest, by simpa using hd, ?_⟩
      rw [List.take_succ_cons]
      simp only [List.mem_cons, not_or]
      exact ⟨fun hcb => hb hcb.symm, hnot⟩

/-- Core of claim C1: the length-maximising `strncmp` comparison of
`cli_basic_table_check_and_exe` / `cli_user_table_check_and_exe` succeeds only
when the line's command-name prefix (as computed by the dispatcher) equals the
command's name exactly, in content and in length.  The hypothesis `32 ∉ name`
is the data-model invariant that command names contain no space. -/
theorem cli_cmd_match_exact (rxN : Nat) (ln name : List Byte)
    (hlen : ln.length ≤ rxN) (hname : 32 ∉ name)
    (hm : cli_cmd_match ln
      (cli_calc_cmd_size rxN ln (cli_find_char ln 32 rxN)) name = true) :
    ln.take (cli_calc_cmd_size rxN ln (cli_find_char ln 32 rxN)) = name := by
  by_cases hsp : 32 ∈ ln
  · obtain ⟨p, rest, hd, hnot⟩ := mem_split_at_first 32 ln hsp
    have hplen : p < ln.length := by
      by_contra hge
      rw [List.drop_eq_nil_of_le (Nat.le_of_not_lt hge)] at hd
      exact List.noConfusion hd
    have hcs := ((splitter_spec rxN ln).2 p rest hd hnot (Nat.lt_of_lt_of_le hplen hlen)).2
    rw [hcs] at hm ⊢
    rcases Nat.le_total name.length p with hle | hle
    · have hmax : max p name.length = p := Nat.max_eq_left hle
      simp only [cli_cmd_match, strncmp_eq, hmax, beq_iff_eq] at hm
      rw [hm, List.take_of_length_le hle]
    · have hmax : max p name.length = name.length := Nat.max_eq_right hle
      simp only [cli_cmd_match, strncmp_eq, hmax, beq_iff_eq, List.take_length] at hm
      rcases Nat.eq_or_lt_of_le hle with heq | hlt
      · rw [heq]
        exact hm
      · exfalso
        have hp32 : ln[p]? = some 32 := by
          have h0 := List.getElem?_drop ln p 0
          rw [hd] at h0
          simpa using h0.symm
        have htk : (ln.take name.length)[p]? = some 32 := by
          rw [List.getElem?_take]
          simp [hlt, hp32]
        rw [hm] at htk
        obtain ⟨_, hget⟩ := List.getElem?_eq_some_iff.mp htk
        exact hname (hget ▸ List.getElem_mem ..)
  · have hcs := ((splitter_spec rxN ln).1 hsp hlen).2
    rw [hcs] at hm ⊢
    simp only [cli_cmd_match, strncmp_eq, beq_iff_eq] at hm
    rw [List.take_of_length_le (Nat.le_max_left ..),
      List.take_of_length_le (Nat.le_max_right ..)] at hm
    rw [List.take_length]
    exact hm

/-- Claim C1: for every input line and every command entry (basic table or any
registered user table), the lookup performed by `cli_basic_table_check_and_exe`
and `cli_user_table_check_and_exe` invokes an entry only if the line's
command-name prefix equals the entry's name exactly, in content and in length
— because the `strncmp` length is `CLI_MAX(cmd_size, strlen(name))`.  The
hypothesis `32 ∉ name` is the data-model invariant that command names contain
no embedded space. -/
theorem cmd_lookup_exact_name (rxN : Nat) (basic : List cli_cmd_t)
    (tables : List (Option cli_cmd_table_t)) (ln : List Byte) (c : cli_cmd_t)
    (hlen : ln.length ≤ rxN) (hname : 32 ∉ cstr c.p_name)
    (hexec : exec_lookup basic tables (cli_execute_cmd rxN basic tables ln) = some c) :
    ln.take (cli_calc_cmd_size rxN ln (cli_find_char ln 32 rxN)) = cstr c.p_name := by
  simp only [cli_execute_cmd] at hexec
  cases hb : cli_basic_table_check_and_exe basic ln
      (cli_calc_cmd_size rxN ln (cli_find_char ln 32 rxN)) with
  | some i =>
    simp only [hb, exec_lookup] at hexec
    obtain ⟨c', hc', hmc⟩ := cli_table_scan_some ln _ basic i hb
    rw [hexec] at hc'
    obtain rfl : c = c' := by injection hc'
    exact cli_cmd_match_exact rxN ln (cstr c.p_name) hlen hname hmc
  | none =>
    simp only [hb] at hexec
    cases hu : cli_user_table_check_and_exe ln
        (cli_calc_cmd_size rxN ln (cli_find_char ln 32 rxN)) tables with
    | some ti =>
      obtain ⟨t, i⟩ := ti
      simp only [hu, exec_lookup] at hexec
      obtain ⟨tab, htab, hscan⟩ := cli_user_scan_some ln _ tables t i hu
      rw [htab] at hexec
      have hexec2 : tab.cmd.get? i = some c := hexec
      obtain ⟨c', hc', hmc⟩ := cli_table_scan_some ln _ tab.cmd i hscan
      rw [hexec2] at hc'
      obtain rfl : c = c' := by injection hc'
      exact cli_cmd_match_exact rxN ln (cstr c.p_name) hlen hname hmc
    | none =>
      simp only [hu, exec_lookup] at hexec
      exact Option.noConfusion hexec

/-- Witness for C1: in a registry holding both `"par"` and `"par_set"`, the
line `"par_set 12,3.5"` executes exactly the `"par_set"` entry, and its name
equals the line's command-name prefix; moreover `"par"` (length 3) fails the
match against `"par_set"`, and `"par_set"` (length 7) fails the match against
`"par"`. -/
theorem cmd_lookup_exact_name_witness :
    ((bytes "par_set 12,3.5").length ≤ 64 ∧
      32 ∉ cstr (some (bytes "par_set")) ∧
      exec_lookup
        [⟨some (bytes "par"), some 0, some (bytes "h0")⟩,
          ⟨some (bytes "par_set"), some 1, some (bytes "h1")⟩] []
        (cli_execute_cmd 64
          [⟨some (bytes "par"), some 0, some (bytes "h0")⟩,
            ⟨some (bytes "par_set"), some 1, some (bytes "h1")⟩] []
          (bytes "par_set 12,3.5")) =
        some ⟨some (bytes "par_set"), some 1, some (bytes "h1")⟩ ∧
      (bytes "par_set 12,3.5").take
        (cli_calc_cmd_size 64 (bytes "par_set 12,3.5")
          (cli_find_char (bytes "par_set 12,3.5") 32 64)) =
        cstr (some (bytes "par_set"))) ∧
    cli_cmd_match (bytes "par") 3 (bytes "par_set") = false ∧
    cli_cmd_match (bytes "par_set") 7 (bytes "par") = false := by
  refine ⟨⟨by decide, by decide, by decide, ?_⟩, by decide, by decide⟩
  exact cmd_lookup_exact_name 64
    [⟨some (bytes "par"), some 0, some (bytes "h0")⟩,
      ⟨some (bytes "par_set"), some 1, some (bytes "h1")⟩] []
    (bytes "par_set 12,3.5") ⟨some (bytes "par_set"), some 1, some (bytes "h1")⟩
    (by decide) (by decide) (by decide)

/-! ### Dispatch order (claim C5) -/

/-- Spec-side definition (from the spec's words, for refinement comparison):
the commands reachable by the dispatcher in search order — the built-in basic
table first, then the registered user tables in registration order, commands
within each table in declaration order. -/
def registered_cmds (basic : List cli_cmd_t) (tables : List (Option cli_cmd_table_t)) :
    List cli_cmd_t :=
  basic ++ (tables.filterMap id).flatMap (fun tab => tab.cmd)

theorem cli_table_scan_bind_get (ln : List Byte) (cs : Nat) (l : List cli_cmd_t) :
    (cli_table_scan ln cs l).bind l.get? =
      l.find? (fun c => cli_cmd_match ln cs (cstr c.p_name)) := by
  induction l with
  | nil => rfl
  | cons c0 rest ih =>
    by_cases hm : cli_cmd_match ln cs (cstr c0.p_name)
    · simp [cli_table_scan, List.find?_cons, hm]
    · simp only [cli_table_scan, if_neg hm, List.find?_cons, hm, Bool.false_eq_true, if_false]
      rw [← ih]
      cases cli_table_scan ln cs rest <;> simp

theorem cli_user_scan_bind_get (ln : List Byte) (cs : Nat)
    (slots : List (Option cli_cmd_table_t)) :
    (cli_user_table_check_and_exe ln cs slots).bind
        (fun ti =>
          match slots.get? ti.1 with
          | some (some tab) => tab.cmd.get? ti.2
          | _ => none) =
      ((slots.filterMap id).flatMap (fun tab => tab.cmd)).find?
        (fun c => cli_cmd_match ln cs (cstr c.p_name)) := by
  induction slots with
  | nil => rfl
  | cons s rest ih =>
    cases s with
    | none =>
      have hfm : (((none :: rest : List (Option cli_cmd_table_t)).filterMap id).flatMap
          (fun tab => tab.cmd)) = ((rest.filterMap id).flatMap (fun tab => tab.cmd)) := by
        simp
      rw [hfm, ← ih]
      show ((cli_user_table_check_and_exe ln cs rest).map (fun ti => (ti.1 + 1, ti.2))).bind _ = _
      cases cli_user_table_check_and_exe ln cs rest with
      | none => rfl
      | some ti => rfl
    | some tab0 =>
      have hfm : (((some tab0 :: rest : List (Option cli_cmd_table_t)).filterMap id).flatMap
          (fun tab => tab.cmd)) = tab0.cmd ++ ((rest.filterMap id).flatMap (fun tab => tab.cmd)) := by
        simp
      simp only [cli_user_table_check_and_exe]
      rw [hfm, List.find?_append]
      cases hscan : cli_table_scan ln cs tab0.cmd with
      | some i =>
        have hfind : tab0.cmd.get? i =
            tab0.cmd.find? (fun c => cli_cmd_match ln cs (cstr c.p_name)) := by
          have h0 := cli_table_scan_bind_get ln cs tab0.cmd
          rw [hscan] at h0
          exact h0
        obtain ⟨c, hc, _⟩ := cli_table_scan_some ln cs tab0.cmd i hscan
        show tab0.cmd.get? i = _
        rw [← hfind, hc]
        rfl
      | none =>
        have hfind : tab0.cmd.find? (fun c => cli_cmd_match ln cs (cstr c.p_name)) = none := by
          have h0 := cli_table_scan_bind_get ln cs tab0.cmd
          rw [hscan] at h0
          exact h0.symm
        rw [hfind, Option.none_or, ← ih]
        show ((cli_user_table_check_and_exe ln cs rest).map (fun ti => (ti.1 + 1, ti.2))).bind _ = _
        cases cli_user_table_check_and_exe ln cs rest with
        | none => rfl
        | some ti => rfl

/-- Claim C5: the dispatcher searches the basic table first, then the
registered user tables in registration order, commands within each table in
declaration order, and invokes exactly the first command whose name matches
(`none` = the unknown-command fallback, no handler).  Consequently, for a name
present in two registered tables the first-registered table's handler wins,
and at most one handler runs per dispatched line. -/
theorem cli_dispatch_first_match (rxN : Nat) (basic : List cli_cmd_t)
    (tables : List (Option cli_cmd_table_t)) (ln : List Byte) :
    exec_lookup basic tables (cli_execute_cmd rxN basic tables ln) =
      (registered_cmds basic tables).find?
        (fun c => cli_cmd_match ln
          (cli_calc_cmd_size rxN ln (cli_find_char ln 32 rxN)) (cstr c.p_name)) := by
  simp only [cli_execute_cmd, registered_cmds, List.find?_append]
  cases hb : cli_basic_table_check_and_exe basic ln
      (cli_calc_cmd_size rxN ln (cli_find_char ln 32 rxN)) with
  | some i =>
    have hfind := cli_table_scan_bind_get ln
      (cli_calc_cmd_size rxN ln (cli_find_char ln 32 rxN)) basic
    rw [show cli_table_scan ln (cli_calc_cmd_size rxN ln (cli_find_char ln 32 rxN)) basic
        = some i from hb] at hfind
    have hfind2 : basic.get? i = basic.find?
        (fun c => cli_cmd_match ln
          (cli_calc_cmd_size rxN ln (cli_find_char ln 32 rxN)) (cstr c.p_name)) := hfind
    obtain ⟨c, hc, _⟩ := cli_table_scan_some ln _ basic i hb
    show basic.get? i = _
    rw [← hfind2, hc]
    rfl
  | none =>
    have hfind := cli_table_scan_bind_get ln
      (cli_calc_cmd_size rxN ln (cli_find_char ln 32 rxN)) basic
    rw [show cli_table_scan ln (cli_calc_cmd_size rxN ln (cli_find_char ln 32 rxN)) basic
        = none from hb] at hfind
    have hfind2 : basic.find?
        (fun c => cli_cmd_match ln
          (cli_calc_cmd_size rxN ln (cli_find_char ln 32 rxN)) (cstr c.p_name)) = none :=
      hfind.symm
    rw [hfind2, Option.none_or]
    cases hu : cli_user_table_check_and_exe ln
        (cli_calc_cmd_size rxN ln (cli_find_char ln 32 rxN)) tables with
    | some ti =>
      have huser := cli_user_scan_bind_get ln
        (cli_calc_cmd_size rxN ln (cli_find_char ln 32 rxN)) tables
      rw [hu] at huser
      exact huser
    | none =>
      have huser := cli_user_scan_bind_get ln
        (cli_calc_cmd_size rxN ln (cli_find_char ln 32 rxN)) tables
      rw [hu] at huser
      exact huser

/-! ### Unknown-command fallback (claim C6) -/

/-- Claim C6: when the command name of a completed line matches no command in
the basic table nor in any registered user table, the dispatcher invokes no
command handler — it reaches the `cli_unknown` fallback — and `cli_unknown`
emits exactly one output line, `ERR, Unknown command!`. -/
theorem cli_unknown_fallback (rxN : Nat) (basic : List cli_cmd_t)
    (tables : List (Option cli_cmd_table_t)) (ln : List Byte)
    (hno : ∀ c ∈ registered_cmds basic tables,
      cli_cmd_match ln (cli_calc_cmd_size rxN ln (cli_find_char ln 32 rxN))
        (cstr c.p_name) = false) :
    cli_execute_cmd rxN basic tables ln = .unknown ∧
    cli_unknown_output = [bytes (r"ERR, Unknown command!")] ∧
    cli_unknown_output.length = 1 := by
  refine ⟨?_, rfl, rfl⟩
  have hbasic : cli_basic_table_check_and_exe basic ln
      (cli_calc_cmd_size rxN ln (cli_find_char ln 32 rxN)) = none := by
    cases hb : cli_basic_table_check_and_exe basic ln
        (cli_calc_cmd_size rxN ln (cli_find_char ln 32 rxN)) with
    | none => rfl
    | some i =>
      obtain ⟨c, hc, hmc⟩ := cli_table_scan_some ln _ basic i hb
      have hmem : c ∈ registered_cmds basic tables :=
        List.mem_append_left _ (List.get?_mem hc)
      rw [hno c hmem] at hmc
      exact Bool.noConfusion hmc
  have huser : cli_user_table_check_and_exe ln
      (cli_calc_cmd_size rxN ln (cli_find_char ln 32 rxN)) tables = none := by
    cases hu : cli_user_table_check_and_exe ln
        (cli_calc_cmd_size rxN ln (cli_find_char ln 32 rxN)) tables with
    | none => rfl
    | some ti =>
      obtain ⟨t, i⟩ := ti
      obtain ⟨tab, htab, hscan⟩ := cli_user_scan_some ln _ tables t i hu
      obtain ⟨c, hc, hmc⟩ := cli_table_scan_some ln _ tab.cmd i hscan
      have htabmem : tab ∈ tables.filterMap id :=
        List.mem_filterMap.mpr ⟨some tab, List.get?_mem htab, rfl⟩
      have hmem : c ∈ registered_cmds basic tables :=
        List.mem_append_right _
          (List.mem_flatMap.mpr ⟨tab, htabmem, List.get?_mem hc⟩)
      rw [hno c hmem] at hmc
      exact Bool.noConfusion hmc
  simp [cli_execute_cmd, hbasic, huser]

/-- Witness for C6: a registry holding the built-in `"help"` and a user table
with `"osci_start"`; the line `"foo"` matches nothing, the dispatcher returns
the unknown fallback, and the fallback output is the single line. -/
theorem cli_unknown_fallback_witness :
    ((∀ c ∈ registered_cmds
        [⟨some (bytes "help"), some 0, some (bytes "h")⟩]
        [some ⟨[⟨some (bytes "osci_start"), some 1, some (bytes "h")⟩]⟩, none],
      cli_cmd_match (bytes "foo")
        (cli_calc_cmd_size 64 (bytes "foo") (cli_find_char (bytes "foo") 32 64))
        (cstr c.p_name) = false) ∧
      cli_execute_cmd 64
        [⟨some (bytes "help"), some 0, some (bytes "h")⟩]
        [some ⟨[⟨some (bytes "osci_start"), some 1, some (bytes "h")⟩]⟩, none]
        (bytes "foo") = .unknown) ∧
    cli_unknown_output.length = 1 := by
  refine ⟨⟨by decide, ?_⟩, by decide⟩
  exact (cli_unknown_fallback 64
    [⟨some (bytes "help"), some 0, some (bytes "h")⟩]
    [some ⟨[⟨some (bytes "osci_start"), some 1, some (bytes "h")⟩]⟩, none]
    (bytes "foo") (by decide)).1

/-! ### Help command (claim C7) -/

theorem cli_help_user_loop_eq (tables : List (Option cli_cmd_table_t)) :
    cli_help_user_loop tables =
      (tables.filterMap id).flatMap (fun tab => cli_help_sep :: tab.cmd.map cli_help_line) := by
  induction tables with
  | nil => rfl
  | cons s rest ih =>
    cases s with
    | none => simpa [cli_help_user_loop] using ih
    | some tab => simp [cli_help_user_loop, ih]

/-- Claim C7: `help` with no attribute prints, after the three header lines,
one line per command — the name left-justified in a 25-character column
followed by the help string — for the basic table and for every *registered*
user table in registration order, a separator line before each registered
table's block, nothing for unregistered slots, and a final separator; `help`
with any attribute present produces only the unknown-command response. -/
theorem cli_help_spec (basic : List cli_cmd_t) (tables : List (Option cli_cmd_table_t)) :
    (cli_help basic tables none =
      [bytes (r" "), bytes (r"    List of device commands "), cli_help_sep]
        ++ basic.map cli_help_line
        ++ (tables.filterMap id).flatMap (fun tab => cli_help_sep :: tab.cmd.map cli_help_line)
        ++ [cli_help_sep]) ∧
    (∀ a, cli_help basic tables (some a) = cli_unknown_output) ∧
    ((cli_help basic tables none).length =
      4 + basic.length + ((tables.filterMap id).map (fun tab => 1 + tab.cmd.length)).sum) := by
  have hmain : cli_help basic tables none =
      [bytes (r" "), bytes (r"    List of device commands "), cli_help_sep]
        ++ basic.map cli_help_line
        ++ (tables.filterMap id).flatMap (fun tab => cli_help_sep :: tab.cmd.map cli_help_line)
        ++ [cli_help_sep] := by
    simp only [cli_help, cli_help_user_loop_eq]
  refine ⟨hmain, fun a => rfl, ?_⟩
  rw [hmain]
  have hsum : (List.map (List.length ∘ fun tab => cli_help_sep :: List.map cli_help_line tab.cmd)
      (List.filterMap id tables)).sum =
      (List.map (fun tab => 1 + tab.cmd.length) (List.filterMap id tables)).sum := by
    congr 1
    apply List.map_congr_left
    intro tab _
    simp [Function.comp, Nat.add_comm]
  simp only [List.length_append, List.length_map, List.length_flatMap, hsum]
  simp only [List.length_cons, List.length_nil]
  omega

/-! ### Table registration (claim C8) -/

/-- Claim C8: `cli_register_cmd_table` validates every command of the given
table; if any command has a NULL name, NULL help string or NULL handler the
whole table is rejected: `eCLI_ERROR` is returned (and `CLI_ASSERT(0)` fires
in debug builds), the registry — slot array and table count — is unchanged,
and dispatch behaves exactly as before, so none of the table's commands
become reachable. -/
theorem cli_register_rejects_invalid (maxTables maxCmds : Nat) (st : cli_registry)
    (tab : cli_cmd_table_t) (c : cli_cmd_t) (hc : c ∈ tab.cmd)
    (hbad : c.p_name = none ∨ c.p_help = none ∨ c.p_func = none) :
    cli_register_cmd_table maxTables maxCmds st tab = (st, .eCLI_ERROR) ∧
    (cli_register_cmd_table maxTables maxCmds st tab).1.count = st.count ∧
    (∀ rxN basic ln,
      cli_execute_cmd rxN basic (cli_register_cmd_table maxTables maxCmds st tab).1.tables ln =
        cli_execute_cmd rxN basic st.tables ln) := by
  have hval : cli_validate_user_table maxCmds tab = false := by
    rw [cli_validate_user_table]
    cases hall : tab.cmd.all (fun c => c.p_name.isSome && c.p_help.isSome && c.p_func.isSome) with
    | false => simp
    | true =>
      exfalso
      have := List.all_eq_true.mp hall c hc
      rcases hbad with hb | hb | hb <;> rw [hb] at this <;> simp at this
  have hmain : cli_register_cmd_table maxTables maxCmds st tab = (st, .eCLI_ERROR) := by
    rw [cli_register_cmd_table, hval]
    by_cases hcnt : st.count < maxTables <;> simp [hcnt]
  exact ⟨hmain, by rw [hmain], fun rxN basic ln => by rw [hmain]⟩

/-- Witness for C8: registering a table whose only command has a NULL name is
rejected with `eCLI_ERROR` and leaves an empty two-slot registry unchanged. -/
theorem cli_register_rejects_invalid_witness :
    (⟨none, some 0, some (bytes "h")⟩ ∈
        (⟨[⟨none, some 0, some (bytes "h")⟩]⟩ : cli_cmd_table_t).cmd ∧
      cli_register_cmd_table 2 32 ⟨[none, none], 0⟩ ⟨[⟨none, some 0, some (bytes "h")⟩]⟩ =
        (⟨[none, none], 0⟩, .eCLI_ERROR)) ∧
    (cli_register_cmd_table 2 32 ⟨[none, none], 0⟩ ⟨[⟨none, some 0, some (bytes "h")⟩]⟩).1.count
      = 0 := by
  refine ⟨⟨by decide, ?_⟩, by decide⟩
  exact (cli_register_rejects_invalid 2 32 ⟨[none, none], 0⟩
    ⟨[⟨none, some 0, some (bytes "h")⟩]⟩ ⟨none, some 0, some (bytes "h")⟩
    (by decide) (Or.inl rfl)).1

/-! ### cli_printf truncation behaviour (claim C9) -/

/-- Counterexample to C9: a rendering of 9 bytes with a staging-buffer
capacity of `CLI_CFG_TX_BUF_SIZE = 8` is *not* reported as an error —
`cli_printf` returns `eCLI_OK` (the source renders with `vsprintf`, which
never consults the buffer capacity, and no length check exists). -/
theorem cli_printf_no_capacity_check :
    (List.replicate 9 (65 : Byte)).length > 8 ∧
    (cli_printf 8 true (some (List.replicate 9 (65 : Byte))) [13, 10]).1 =
      cli_status_t.eCLI_OK := by
  decide

/-- Amended C9: `cli_printf` performs no truncation detection at all.  For an
initialised CLI and a non-NULL format string it transmits the full rendering
followed by the terminator and returns `eCLI_OK` regardless of the rendered
length and of the staging-buffer capacity (the over-long rendering overruns
`gu8_tx_buffer` in C rather than being reported); errors are returned only
for use before `cli_init` (`eCLI_ERROR_INIT`) and for a NULL format
(`eCLI_ERROR`). -/
theorem cli_printf_spec (txN : Nat) (rendered term : List Byte) :
    cli_printf txN true (some rendered) term = (.eCLI_OK, [rendered, term]) ∧
    (∀ r, cli_printf txN false r term = (.eCLI_ERROR_INIT, [])) ∧
    cli_printf txN true none term = (.eCLI_ERROR, []) :=
  ⟨rfl, fun _ => rfl, rfl⟩

/-! ### Live-watch channel select bound (claim C10) -/

/-- Exhibit for C10 (a bug in the code): with
`CLI_CFG_PAR_MAX_IN_LIVE_WATCH = 4`, the attribute `"1,2,3,4,5"` (five valid
parameter IDs, `par_get_num_by_id` succeeding on each) drives the
`status_des` loop — whose guard is `num_of <= CLI_CFG_PAR_MAX_IN_LIVE_WATCH`
— to perform a write at index 4, one past the end of
`par_list[CLI_CFG_PAR_MAX_IN_LIVE_WATCH]`, and to leave `num_of = 5`,
exceeding the declared capacity. -/
theorem cli_status_des_oob :
    (4, 5) ∈ (cli_status_des_core 4 some [1, 2, 3, 4, 5]).2.1 ∧
    (cli_status_des_core 4 some [1, 2, 3, 4, 5]).1 = 5 := by
  decide

/-! ### Infrastructure for the parser proofs: `isPrefixOf` and `strstr_pos` -/

theorem isPrefixOf_iff_take (l l' : List Byte) :
    l.isPrefixOf l' = true ↔ l'.take l.length = l := by
  induction l generalizing l' with
  | nil => simp [List.isPrefixOf]
  | cons a as ih =>
    cases l' with
    | nil => simp [List.isPrefixOf]
    | cons b bs =>
      simp only [List.isPrefixOf, Bool.and_eq_true, beq_iff_eq, List.length_cons,
        List.take_succ_cons, List.cons.injEq, ih]
      tauto

theorem isPrefixOf_length_le (l l' : List Byte) (h : l.isPrefixOf l' = true) :
    l.length ≤ l'.length := by
  have ht := (isPrefixOf_iff_take l l').mp h
  have := congrArg List.length ht
  simp only [List.length_take] at this
  omega

theorem isPrefixOf_false_of_short (l l' : List Byte) (h : l'.length < l.length) :
    l.isPrefixOf l' = false := by
  cases hp : l.isPrefixOf l' with
  | false => rfl
  | true => exact absurd (isPrefixOf_length_le l l' hp) (by omega)

theorem isPrefixOf_take (l x : List Byte) (j : Nat) (hj : l.length ≤ j) :
    l.isPrefixOf (x.take j) = l.isPrefixOf x := by
  have h1 := isPrefixOf_iff_take l (x.take j)
  have h2 := isPrefixOf_iff_take l x
  rw [List.take_take, Nat.min_eq_left hj] at h1
  cases hp : l.isPrefixOf x with
  | true => exact h1.mpr (h2.mp hp)
  | false =>
    cases hq : l.isPrefixOf (x.take j) with
    | false => rfl
    | true =>
      exfalso
      have := h2.mpr (h1.mp hq)
      rw [hp] at this
      exact Bool.noConfusion this

theorem isPrefixOf_append_left (l x y : List Byte) (h : l.length ≤ x.length) :
    l.isPrefixOf (x ++ y) = l.isPrefixOf x := by
  have h1 := isPrefixOf_iff_take l (x ++ y)
  have h2 := isPrefixOf_iff_take l x
  rw [List.take_append_of_le_length h] at h1
  cases hp : l.isPrefixOf x with
  | true => exact h1.mpr (h2.mp hp)
  | false =>
    cases hq : l.isPrefixOf (x ++ y) with
    | false => rfl
    | true =>
      exfalso
      have := h2.mpr (h1.mp hq)
      rw [hp] at this
      exact Bool.noConfusion this

theorem isPrefixOf_self_append (l y : List Byte) : l.isPrefixOf (l ++ y) = true := by
  rw [isPrefixOf_iff_take, List.take_left]

theorem strstr_pos_none_iff (term hay : List Byte) :
    strstr_pos term hay = none ↔ ∀ j, term.isPrefixOf (hay.drop j) = false := by
  induction hay with
  | nil =>
    simp only [strstr_pos, List.drop_nil]
    by_cases hp : term.isPrefixOf [] = true
    · rw [if_pos hp]
      constructor
      · intro h
        exact Option.noConfusion h
      · intro h
        rw [h 0] at hp
        exact Bool.noConfusion hp
    · rw [if_neg hp]
      constructor
      · intro _ j
        exact Bool.eq_false_iff.mpr hp
      · intro _
        rfl
  | cons b rest ih =>
    by_cases hp : term.isPrefixOf (b :: rest) = true
    · rw [strstr_pos, if_pos hp]
      constructor
      · intro h
        exact Option.noConfusion h
      · intro h
        have h0 := h 0
        rw [List.drop_zero, hp] at h0
        exact Bool.noConfusion h0
    · rw [strstr_pos, if_neg hp, Option.map_eq_none', ih]
      constructor
      · intro h j
        cases j with
        | zero =>
          rw [List.drop_zero]
          exact Bool.eq_false_iff.mpr hp
        | succ i => exact h i
      · intro h i
        exact h (i + 1)

theorem strstr_pos_some_iff (term hay : List Byte) (k : Nat) :
    strstr_pos term hay = some k ↔
      term.isPrefixOf (hay.drop k) = true ∧
        ∀ j, j < k → term.isPrefixOf (hay.drop j) = false := by
  induction hay generalizing k with
  | nil =>
    simp only [strstr_pos, List.drop_nil]
    by_cases hp : term.isPrefixOf [] = true
    · rw [if_pos hp]
      constructor
      · intro h
        have hk : k = 0 := by injection h with h'; omega
        subst hk
        exact ⟨hp, by omega⟩
      · rintro ⟨-, hmin⟩
        by_cases hk : k = 0
        · rw [hk]
        · exfalso
          have := hmin 0 (by omega)
          rw [hp] at this
          exact Bool.noConfusion this
    · rw [if_neg hp]
      constructor
      · intro h
        exact Option.noConfusion h
      · rintro ⟨hocc, -⟩
        exact absurd hocc hp
  | cons b rest ih =>
    by_cases hp : term.isPrefixOf (b :: rest) = true
    · rw [strstr_pos, if_pos hp]
      constructor
      · intro h
        have hk : k = 0 := by injection h with h'; omega
        subst hk
        exact ⟨by rw [List.drop_zero]; exact hp, by omega⟩
      · rintro ⟨-, hmin⟩
        by_cases hk : k = 0
        · rw [hk]
        · exfalso
          have := hmin 0 (by omega)
          rw [List.drop_zero, hp] at this
          exact Bool.noConfusion this
    · rw [strstr_pos, if_neg hp]
      constructor
      · intro h
        rw [Option.map_eq_some'] at h
        obtain ⟨k', hk', rfl⟩ := h
        obtain ⟨hocc, hmin⟩ := (ih k').mp hk'
        refine ⟨hocc, ?_⟩
        intro j hj
        cases j with
        | zero =>
          rw [List.drop_zero]
          exact Bool.eq_false_iff.mpr hp
        | succ i => exact hmin i (by omega)
      · rintro ⟨hocc, hmin⟩
        cases k with
        | zero =>
          rw [List.drop_zero] at hocc
          exact absurd hocc hp
        | succ k' =>
          rw [Option.map_eq_some']
          refine ⟨k', (ih k').mpr ⟨hocc, ?_⟩, rfl⟩
          intro i hi
          exact hmin (i + 1) (by omega)

theorem strstr_pos_take_none (term s : List Byte) (hL : 0 < term.length)
    (h : strstr_pos term s = none) (m : Nat) : strstr_pos term (s.take m) = none := by
  rw [strstr_pos_none_iff] at h ⊢
  intro j
  rw [List.drop_take]
  rcases le_or_lt term.length (m - j) with hle | hlt
  · rw [isPrefixOf_take term (s.drop j) (m - j) hle]
    exact h j
  · refine isPrefixOf_false_of_short _ _ ?_
    have : ((s.drop j).take (m - j)).length ≤ m - j := by
      simp [List.length_take]
    omega

/-! ### Infrastructure for the parser proofs: `takeWhile` and buffer shapes -/

theorem takeWhile_append_replicate_gen (p : Byte → Bool) (hp0 : p 0 = false)
    (l : List Byte) (m : Nat) :
    (l ++ List.replicate m 0).takeWhile p = l.takeWhile p := by
  induction l with
  | nil =>
    simp only [List.nil_append, List.takeWhile_nil]
    cases m with
    | zero => rfl
    | succ m' =>
      rw [List.replicate_succ, List.takeWhile_cons, hp0]
      rfl
  | cons b rest ih =>
    rw [List.cons_append, List.takeWhile_cons, List.takeWhile_cons]
    cases hb : p b with
    | false => rfl
    | true => rw [ih]

theorem takeWhile_eq_self_gen (p : Byte → Bool) (l : List Byte)
    (h : ∀ b ∈ l, p b = true) : l.takeWhile p = l := by
  induction l with
  | nil => rfl
  | cons b rest ih =>
    rw [List.takeWhile_cons, h b (List.mem_cons_self b rest), if_pos rfl,
      ih (fun x hx => h x (List.mem_cons_of_mem b hx))]

theorem takeWhile_append_all_gen (p : Byte → Bool) (l r : List Byte)
    (h : ∀ b ∈ l, p b = true) : (l ++ r).takeWhile p = l ++ r.takeWhile p := by
  induction l with
  | nil => simp
  | cons b rest ih =>
    rw [List.cons_append, List.takeWhile_cons, h b (List.mem_cons_self b rest),
      List.cons_append, if_pos rfl,
      ih (fun x hx => h x (List.mem_cons_of_mem b hx))]

theorem takeWhile_replicate_zero_led_gen (p : Byte → Bool) (hp0 : p 0 = false)
    (m : Nat) (hm : 0 < m) (z : List Byte) :
    (List.replicate m 0 ++ z).takeWhile p = [] := by
  cases m with
  | zero => omega
  | succ m' =>
    rw [List.replicate_succ, List.cons_append, List.takeWhile_cons, hp0]
    rfl

theorem takeWhile_as_take_gen (p : Byte → Bool) (l : List Byte) :
    l.takeWhile p = l.take (l.takeWhile p).length := by
  induction l with
  | nil => rfl
  | cons b rest ih =>
    rw [List.takeWhile_cons]
    cases hb : p b with
    | false => rfl
    | true =>
      rw [if_pos rfl, List.length_cons, List.take_succ_cons, ← ih]

theorem strstr_pos_cstring_fill_none (term g : List Byte) (hL : 0 < term.length)
    (h : strstr_pos term g = none) (m r : Nat) :
    strstr_pos term (cstring (g.take m ++ List.replicate r 0)) = none := by
  rw [cstring, takeWhile_append_replicate_gen _ (by rfl)]
  rw [takeWhile_as_take_gen]
  exact strstr_pos_take_none term _ hL (strstr_pos_take_none term g hL h m) _

theorem set_fill (x R : List Byte) (j : Nat) (b : Byte)
    (hjx : j ≤ x.length) (hjR : j < R.length) :
    (x.take j ++ R.drop j).set j b = x.take j ++ b :: R.drop (j + 1) := by
  have hlen : (x.take j).length = j := by simp [List.length_take]; omega
  rw [List.set_append]
  rw [hlen]
  simp only [Nat.lt_irrefl, if_false, Nat.sub_self]
  rw [List.drop_eq_getElem_cons hjR]
  rfl

/-- Core run of the byte-draining loop (shared by claims C2 and C4): starting
at cursor `j` over a buffer whose first `j` cells hold the first `j` line
bytes and whose remaining cells hold the residue `R` (all-zero for a fresh
buffer, the abandoned bytes after an overflow), feeding the remaining bytes of
a line `X` of length `k + |term|` whose terminator first occurs at offset `k`
produces exactly one dispatch of `X.take k` (the terminator occurrence is
overwritten with NULs), leaves the cursor at 0, and returns `eCLI_OK` from
every call. -/
theorem cli_feed_line (rxN : Nat) (term X R : List Byte) (k : Nat)
    (hRlen : R.length = rxN)
    (hL : 0 < term.length)
    (hXlen : X.length = k + term.length)
    (hnzX : ∀ b ∈ X, b ≠ 0)
    (hocc : term.isPrefixOf (X.drop k) = true)
    (hmin : ∀ p, p < k → term.isPrefixOf (X.drop p) = false)
    (hfit : k + term.length ≤ rxN - 1)
    (h3 : 3 ≤ rxN)
    (hquiet : ∀ j, j + 1 < k + term.length →
      strstr_pos term (cstring (X.take (j + 1) ++ R.drop (j + 1))) = none) :
    ∀ (rem : List Byte) (j : Nat), rem = X.drop j → j < k + term.length →
      cli_feed rxN term ⟨X.take j ++ R.drop j, j⟩ rem =
        (⟨X.take k ++ List.replicate term.length 0 ++ R.drop (k + term.length), 0⟩,
          [X.take k], List.replicate rem.length cli_status_t.eCLI_OK) := by
  intro rem
  induction rem with
  | nil =>
    intro j hrem hj
    exfalso
    have := congrArg List.length hrem
    simp only [List.length_nil, List.length_drop, hXlen] at this
    omega
  | cons b rest ih =>
    intro j hrem hj
    have hjX : j < X.length := by rw [hXlen]; exact hj
    have hcons := List.drop_eq_getElem_cons hjX
    rw [← hrem] at hcons
    have hb : b = X[j] := by
      injection hcons with h1 h2
    have hrest : rest = X.drop (j + 1) := by
      injection hcons with h1 h2
    have hset : (X.take j ++ R.drop j).set j b = X.take (j + 1) ++ R.drop (j + 1) := by
      rw [set_fill X R j b (Nat.le_of_lt hjX) (by omega), hb, List.append_cons,
        List.take_concat_get' X j hjX]
    rcases lt_or_ge (j + 1) (k + term.length) with hmid | hfire
    · -- intermediate byte: no terminator yet, cursor advances
      have hstep : cli_parser_step rxN term ⟨X.take j ++ R.drop j, j⟩ b =
          (⟨X.take (j + 1) ++ R.drop (j + 1), j + 1⟩, none, .eCLI_OK) := by
        simp only [cli_parser_step, hset, hquiet j hmid]
        rw [if_pos (show j < rxN - 2 by omega)]
      simp only [cli_feed, hstep]
      rw [ih (j + 1) hrest hmid]
      simp [List.replicate_succ]
    · -- final byte of the terminator: dispatch fires
      have hj1 : j + 1 = k + term.length := by omega
      have hrest0 : rest = [] := by
        rw [hrest, hj1, ← hXlen, List.drop_length]
      subst hrest0
      have hXtake : X.take (k + term.length) = X := by
        rw [← hXlen, List.take_length]
      have hnzP : ∀ b ∈ X, (fun x => decide (x ≠ 0)) b = true := by
        intro x hx
        simpa using hnzX x hx
      have hcs : cstring (X ++ R.drop (k + term.length)) =
          X ++ (R.drop (k + term.length)).takeWhile (· ≠ 0) := by
        rw [cstring, takeWhile_append_all_gen _ X _ hnzP]
      have hfound : strstr_pos term (cstring (X ++ R.drop (k + term.length))) = some k := by
        rw [hcs, strstr_pos_some_iff]
        constructor
        · rw [List.drop_append_of_le_length (by omega),
            isPrefixOf_append_left term _ _ (by simp [List.length_drop]; omega)]
          exact hocc
        · intro p hp
          rw [List.drop_append_of_le_length (by omega),
            isPrefixOf_append_left term _ _ (by simp [List.length_drop]; omega)]
          exact hmin p hp
      have hstep : cli_parser_step rxN term ⟨X.take j ++ R.drop j, j⟩ b =
          (⟨X.take k ++ List.replicate term.length 0 ++ R.drop (k + term.length), 0⟩,
            some (X.take k), .eCLI_OK) := by
        simp only [cli_parser_step, hset, hj1, hXtake, hfound]
        have hzr : zeroRange (X ++ R.drop (k + term.length)) k term.length =
            X.take k ++ List.replicate term.length 0 ++ R.drop (k + term.length) := by
          rw [zeroRange, List.take_append_of_le_length (by omega)]
          rw [show k + term.length = X.length from hXlen.symm, List.drop_left]
        rw [hzr]
        have hline : cstring (X.take k ++ List.replicate term.length 0 ++
            R.drop (k + term.length)) = X.take k := by
          rw [List.append_assoc, cstring,
            takeWhile_append_all_gen _ (X.take k) _
              (fun x hx => hnzP x (List.mem_of_mem_take hx)),
            takeWhile_replicate_zero_led_gen _ (by rfl) term.length hL,
            List.append_nil]
        rw [hline]
      simp only [cli_feed, hstep]
      simp [List.replicate_succ]

/-- Facts about the prefix of a byte sequence up to and including the first
occurrence of the terminator. -/
theorem first_occurrence_facts (term new : List Byte) (k : Nat) (hL : 0 < term.length)
    (hfirst : strstr_pos term new = some k) :
    (new.take (k + term.length)).length = k + term.length ∧
    term.isPrefixOf ((new.take (k + term.length)).drop k) = true ∧
    (∀ p, p < k → term.isPrefixOf ((new.take (k + term.length)).drop p) = false) := by
  obtain ⟨hoccN, hminN⟩ := (strstr_pos_some_iff term new k).mp hfirst
  have hlen_new : k + term.length ≤ new.length := by
    have := isPrefixOf_length_le term (new.drop k) hoccN
    simp only [List.length_drop] at this
    omega
  refine ⟨by simp [List.length_take]; omega, ?_, ?_⟩
  · rw [List.drop_take, isPrefixOf_take _ _ _ (by omega)]
    exact hoccN
  · intro p hp
    rw [List.drop_take, isPrefixOf_take _ _ _ (by omega)]
    exact hminN p hp

/-- Before the terminator is complete, no prefix of the line contains it. -/
theorem strstr_pos_take_of_first (term new : List Byte) (k m : Nat) (hL : 0 < term.length)
    (hfirst : strstr_pos term new = some k) (hm : m < k + term.length) :
    strstr_pos term (new.take m) = none := by
  obtain ⟨-, hminN⟩ := (strstr_pos_some_iff term new k).mp hfirst
  rw [strstr_pos_none_iff]
  intro p
  rw [List.drop_take]
  rcases le_or_lt term.length (m - p) with hle | hlt
  · rw [isPrefixOf_take _ _ _ hle]
    exact hminN p (by omega)
  · apply isPrefixOf_false_of_short
    have : ((new.drop p).take (m - p)).length ≤ m - p := by simp [List.length_take]
    omega

/-- The overflow run (claim C4, first part): feeding the bytes of a
terminator-free sequence of length `CLI_CFG_RX_BUF_SIZE - 1` from cursor `j`
drives the cursor to the end of the buffer, raises exactly one overrun error
(`eCLI_ERROR`) on the last byte, dispatches nothing, and resets the cursor
to 0. -/
theorem cli_feed_overflow (rxN : Nat) (term g : List Byte)
    (h3 : 3 ≤ rxN) (hL : 0 < term.length)
    (hg : g.length = rxN - 1)
    (hnone : strstr_pos term g = none) :
    ∀ (rem : List Byte) (j : Nat), rem = g.drop j → j < rxN - 1 →
      cli_feed rxN term ⟨g.take j ++ List.replicate (rxN - j) 0, j⟩ rem =
        (⟨g ++ [0], 0⟩, [],
          List.replicate (rem.length - 1) cli_status_t.eCLI_OK ++ [cli_status_t.eCLI_ERROR]) := by
  intro rem
  induction rem with
  | nil =>
    intro j hrem hj
    exfalso
    have := congrArg List.length hrem
    simp only [List.length_nil, List.length_drop, hg] at this
    omega
  | cons b rest ih =>
    intro j hrem hj
    have hjg : j < g.length := by omega
    have hcons := List.drop_eq_getElem_cons hjg
    rw [← hrem] at hcons
    have hb : b = g[j] := by
      injection hcons with h1 h2
    have hrest : rest = g.drop (j + 1) := by
      injection hcons with h1 h2
    have hset : (g.take j ++ List.replicate (rxN - j) 0).set j b
        = g.take (j + 1) ++ List.replicate (rxN - (j + 1)) 0 := by
      have h1 := set_fill g (List.replicate rxN 0) j b (Nat.le_of_lt hjg)
        (by simp [List.length_replicate]; omega)
      rw [List.drop_replicate, List.drop_replicate] at h1
      rw [h1, hb, List.append_cons, List.take_concat_get' g j hjg]
    have hnostr : strstr_pos term
        (cstring (g.take (j + 1) ++ List.replicate (rxN - (j + 1)) 0)) = none :=
      strstr_pos_cstring_fill_none term g hL hnone (j + 1) _
    rcases lt_or_ge (j + 1) (rxN - 1) with hmidj | hlast
    · -- not the last byte yet: cursor advances
      have hstep : cli_parser_step rxN term ⟨g.take j ++ List.replicate (rxN - j) 0, j⟩ b =
          (⟨g.take (j + 1) ++ List.replicate (rxN - (j + 1)) 0, j + 1⟩, none, .eCLI_OK) := by
        simp only [cli_parser_step, hset, hnostr]
        rw [if_pos (show j < rxN - 2 by omega)]
      simp only [cli_feed, hstep]
      rw [ih (j + 1) hrest hmidj]
      have hrlen : rest.length = rxN - 1 - (j + 1) := by
        rw [hrest]
        simp only [List.length_drop, hg]
      obtain ⟨m, hm⟩ : ∃ m, rest.length = m + 1 := ⟨rest.length - 1, by omega⟩
      simp [hm, List.replicate_succ]
    · -- last byte: overrun error, cursor reset
      have hj1 : j + 1 = rxN - 1 := by omega
      have hrest0 : rest = [] := by
        rw [hrest]
        apply List.drop_eq_nil_of_le
        omega
      subst hrest0
      have hgtake : g.take (j + 1) = g := by
        rw [hj1, ← hg, List.take_length]
      have hrepl : List.replicate (rxN - (j + 1)) (0 : Byte) = [0] := by
        have hone : rxN - (j + 1) = 1 := by omega
        rw [hone]
        rfl
      rw [hgtake, hrepl] at hnostr
      have hstep : cli_parser_step rxN term ⟨g.take j ++ List.replicate (rxN - j) 0, j⟩ b =
          (⟨g ++ [0], 0⟩, none, .eCLI_ERROR) := by
        simp only [cli_parser_step, hset, hgtake, hrepl, hnostr]
        rw [if_neg (show ¬ j < rxN - 2 by omega)]
      simp only [cli_feed, hstep]
      simp

/-- Feeding a concatenation of byte sequences concatenates the dispatched
lines and the statuses. -/
theorem cli_feed_append (rxN : Nat) (term : List Byte) (st : parser_state)
    (xs ys : List Byte) :
    cli_feed rxN term st (xs ++ ys) =
      ((cli_feed rxN term (cli_feed rxN term st xs).1 ys).1,
        (cli_feed rxN term st xs).2.1 ++ (cli_feed rxN term (cli_feed rxN term st xs).1 ys).2.1,
        (cli_feed rxN term st xs).2.2 ++
          (cli_feed rxN term (cli_feed rxN term st xs).1 ys).2.2) := by
  induction xs generalizing st with
  | nil => simp [cli_feed]
  | cons b rest ih =>
    simp only [List.cons_append, cli_feed, List.append_eq]
    rw [ih ((cli_parser_step rxN term st b).1)]
    simp [List.append_assoc]

/-- Claim C2: for every byte sequence of non-NUL bytes whose first occurrence
of the configured terminator is at position `k` with `k < capacity - 2`,
feeding the bytes one at a time into the parser handler, starting from an
empty reception buffer and up to the byte completing the terminator, produces
exactly one dispatch whose line equals the first `k` bytes (the terminator
occurrence having been overwritten with NULs), leaves the cursor at 0
immediately after the dispatch, and returns `eCLI_OK` from every call.  The
hypothesis `k + |term| ≤ capacity - 1` is implied by `k < capacity - 2` for
the standard terminators of length at most 2 (CR, LF, CRLF). -/
theorem cli_parser_termination (rxN : Nat) (term new : List Byte) (k : Nat)
    (h3 : 3 ≤ rxN)
    (hL : 0 < term.length)
    (hfirst : strstr_pos term new = some k)
    (hnz : ∀ b ∈ new.take (k + term.length), b ≠ 0)
    (hk : k < rxN - 2)
    (hfit : k + term.length ≤ rxN - 1) :
    (cli_feed rxN term (cli_empty_state rxN) (new.take (k + term.length))).2.1 =
      [new.take k] ∧
    (cli_feed rxN term (cli_empty_state rxN) (new.take (k + term.length))).1.buf_idx = 0 ∧
    (cli_feed rxN term (cli_empty_state rxN) (new.take (k + term.length))).2.2 =
      List.replicate (k + term.length) cli_status_t.eCLI_OK := by
  obtain ⟨hXlen, hocc, hmin⟩ := first_occurrence_facts term new k hL hfirst
  have hquiet : ∀ j, j + 1 < k + term.length →
      strstr_pos term (cstring ((new.take (k + term.length)).take (j + 1) ++
        (List.replicate rxN 0).drop (j + 1))) = none := by
    intro j hj
    have htt : (new.take (k + term.length)).take (j + 1) = new.take (j + 1) := by
      rw [List.take_take, Nat.min_eq_left (by omega)]
    have hall : ∀ x ∈ new.take (j + 1), (fun b => decide (b ≠ 0)) x = true := by
      intro x hx
      rw [← htt] at hx
      simpa using hnz x (List.mem_of_mem_take hx)
    rw [htt, List.drop_replicate, cstring, takeWhile_append_replicate_gen _ (by rfl),
      takeWhile_eq_self_gen _ _ hall]
    exact strstr_pos_take_of_first term new k (j + 1) hL hfirst hj
  have hrun := cli_feed_line rxN term (new.take (k + term.length)) (List.replicate rxN 0) k
    (by simp) hL hXlen (fun b hb => hnz b hb) hocc hmin hfit h3 hquiet
    (new.take (k + term.length)) 0 (List.drop_zero _).symm (by omega)
  have hstate : (⟨(new.take (k + term.length)).take 0 ++ (List.replicate rxN 0).drop 0, 0⟩ :
      parser_state) = cli_empty_state rxN := by
    simp [cli_empty_state]
  rw [hstate] at hrun
  have hXk : (new.take (k + term.length)).take k = new.take k := by
    rw [List.take_take, Nat.min_eq_left (by omega)]
  refine ⟨?_, ?_, ?_⟩ <;> rw [hrun] <;> simp [hXk, hXlen]

/-- Witness for C2 at a concrete input: `rxN = 8`, terminator CR LF, input
`"hi\r\n"` (terminator first at position 2): one dispatch of `"hi"`, cursor 0
afterwards. -/
theorem cli_parser_termination_witness :
    (strstr_pos ([13, 10] : List Byte) [104, 105, 13, 10] = some 2 ∧
      (∀ b ∈ ([104, 105, 13, 10] : List Byte).take 4, b ≠ 0) ∧
      2 < 8 - 2 ∧ 4 ≤ 8 - 1) ∧
    (cli_feed 8 [13, 10] (cli_empty_state 8)
      (([104, 105, 13, 10] : List Byte).take 4)).2.1 =
      [([104, 105, 13, 10] : List Byte).take 2] ∧
    (cli_feed 8 [13, 10] (cli_empty_state 8)
      (([104, 105, 13, 10] : List Byte).take 4)).1.buf_idx = 0 := by
  refine ⟨⟨by decide, by decide, by decide, by decide⟩, ?_, ?_⟩
  · exact (cli_parser_termination 8 [13, 10] [104, 105, 13, 10] 2 (by decide) (by decide)
      (by decide) (by decide) (by decide) (by decide)).1
  · exact (cli_parser_termination 8 [13, 10] [104, 105, 13, 10] 2 (by decide) (by decide)
      (by decide) (by decide) (by decide) (by decide)).2.1

/-- Claim C4: feeding `capacity - 1` bytes containing no terminator into the
parser handler yields zero dispatches, `eCLI_OK` on every call but the last,
an overflow error status (`eCLI_ERROR`) on the last byte, and a cursor reset
to 0; the partial line is abandoned and the error is recoverable: a
subsequently fed terminated line (first terminator occurrence at `k`, fed up
to the byte completing the terminator) is accumulated from the fresh cursor
and dispatched as its first `k` bytes.  The `hquiet` hypothesis states that
the residue of the abandoned line still sitting in the buffer does not
complete a terminator early together with the new line's bytes; it holds in
particular for single-byte terminators and for residues that cannot seam with
the new line (witness). -/
theorem cli_parser_overflow_recovery (rxN : Nat) (term g new : List Byte) (k : Nat)
    (h3 : 3 ≤ rxN) (hL : 0 < term.length)
    (hg : g.length = rxN - 1)
    (hgnone : strstr_pos term g = none)
    (hfirst : strstr_pos term new = some k)
    (hnz : ∀ b ∈ new.take (k + term.length), b ≠ 0)
    (hfit : k + term.length ≤ rxN - 1)
    (hquiet : ∀ j, j + 1 < k + term.length →
      strstr_pos term (cstring ((new.take (k + term.length)).take (j + 1) ++
        (g ++ [0]).drop (j + 1))) = none) :
    cli_feed rxN term (cli_empty_state rxN) g =
      (⟨g ++ [0], 0⟩, [],
        List.replicate (rxN - 2) cli_status_t.eCLI_OK ++ [cli_status_t.eCLI_ERROR]) ∧
    (cli_feed rxN term (cli_empty_state rxN) (g ++ new.take (k + term.length))).2.1 =
      [new.take k] ∧
    (cli_feed rxN term (cli_empty_state rxN) (g ++ new.take (k + term.length))).1.buf_idx
      = 0 ∧
    (cli_feed rxN term (cli_empty_state rxN) (g ++ new.take (k + term.length))).2.2 =
      (List.replicate (rxN - 2) cli_status_t.eCLI_OK ++ [cli_status_t.eCLI_ERROR]) ++
        List.replicate (k + term.length) cli_status_t.eCLI_OK := by
  have hover := cli_feed_overflow rxN term g h3 hL hg hgnone g 0 (List.drop_zero g).symm
    (by omega)
  have hstate0 : (⟨g.take 0 ++ List.replicate (rxN - 0) 0, 0⟩ : parser_state) =
      cli_empty_state rxN := by
    simp [cli_empty_state]
  rw [hstate0] at hover
  have hglen : g.length - 1 = rxN - 2 := by omega
  rw [hglen] at hover
  obtain ⟨hXlen, hocc, hmin⟩ := first_occurrence_facts term new k hL hfirst
  have hRlen : (g ++ [0]).length = rxN := by
    simp [hg]
    omega
  have hrun := cli_feed_line rxN term (new.take (k + term.length)) (g ++ [0]) k
    hRlen hL hXlen (fun b hb => hnz b hb) hocc hmin hfit h3 hquiet
    (new.take (k + term.length)) 0 (List.drop_zero _).symm (by omega)
  have hstate1 : (⟨(new.take (k + term.length)).take 0 ++ (g ++ [0]).drop 0, 0⟩ :
      parser_state) = ⟨g ++ [0], 0⟩ := by
    simp
  rw [hstate1, hXlen] at hrun
  have happ := cli_feed_append rxN term (cli_empty_state rxN) g (new.take (k + term.length))
  rw [hover] at happ
  dsimp only at happ
  rw [hrun] at happ
  have hXk : (new.take (k + term.length)).take k = new.take k := by
    rw [List.take_take, Nat.min_eq_left (by omega)]
  refine ⟨hover, ?_, ?_, ?_⟩ <;> rw [happ] <;> simp [hXk]

/-- Witness for C4 at a concrete input: `rxN = 6`, terminator CR LF, garbage
`"AAAAA"` (5 = capacity - 1 bytes, no terminator) followed by the line
`"B\r\n"`: the garbage yields five calls, four `eCLI_OK` then the overflow
`eCLI_ERROR` with cursor 0 and no dispatch, and the subsequent line is
dispatched as `"B"` from the fresh cursor. -/
theorem cli_parser_overflow_recovery_witness :
    (strstr_pos ([13, 10] : List Byte) [65, 65, 65, 65, 65] = none ∧
      strstr_pos ([13, 10] : List Byte) [66, 13, 10] = some 1) ∧
    cli_feed 6 [13, 10] (cli_empty_state 6) [65, 65, 65, 65, 65] =
      (⟨[65, 65, 65, 65, 65] ++ [0], 0⟩, [],
        List.replicate 4 cli_status_t.eCLI_OK ++ [cli_status_t.eCLI_ERROR]) ∧
    (cli_feed 6 [13, 10] (cli_empty_state 6)
      (([65, 65, 65, 65, 65] : List Byte) ++ ([66, 13, 10] : List Byte).take 3)).2.1 =
      [([66, 13, 10] : List Byte).take 1] ∧
    (cli_feed 6 [13, 10] (cli_empty_state 6)
      (([65, 65, 65, 65, 65] : List Byte) ++ ([66, 13, 10] : List Byte).take 3)).1.buf_idx
      = 0 := by
  have hmain := cli_parser_overflow_recovery 6 [13, 10] [65, 65, 65, 65, 65] [66, 13, 10] 1
    (by decide) (by decide) (by decide) (by decide) (by decide) (by decide) (by decide)
    (by
      intro j hj
      have hlen2 : ([13, 10] : List Byte).length = 2 := rfl
      rw [hlen2] at hj
      have hj2 : j < 2 := by omega
      interval_cases j <;> decide)
  exact ⟨⟨by decide, by decide⟩, hmain.1, hmain.2.1, hmain.2.2.1⟩

end Cli
